import Mathlib

/-!
Verification of `mathematics_dataset/util/probability.py`.

The Python module implements exact rational probability over finite
combinatorial sample spaces.  This file is a shallow embedding of that
module: Python dictionaries become association lists (`List (k × v)` with
distinct keys where that matters), Python sets become lists read up to
membership, sympy rationals become `ℚ`, and code that can raise becomes
`Except String`.

sympy's `Rational(p, q)` does not raise on a zero denominator: with the
default `seterr` settings it returns `nan` for `0/0` and `zoo`
(complex infinity) for `p/0` with `p ≠ 0`.  The type `SymNum` models
these three possible results of a sympy division.
-/

set_option linter.unusedSectionVars false
set_option linter.unusedVariables false

namespace MathDataset

variable {α : Type} {β : Type} [DecidableEq α] [DecidableEq β]

/-- A sympy numeric value as produced by `sympy.Rational(p, q)`: an exact
rational, or `nan` (from `0/0`), or `zoo` (complex infinity, from `p/0`
with `p ≠ 0`). -/
inductive SymNum : Type where
  | rat : ℚ → SymNum
  | nan : SymNum
  | zoo : SymNum
deriving DecidableEq, Repr

/-- `sympy.Rational(p, q)`: exact division when `q ≠ 0`; with the default
`seterr` settings, `0/0` evaluates to `nan` and `p/0` (`p ≠ 0`) to `zoo`,
with no exception raised. -/
def symRational (p q : ℚ) : SymNum :=
  if q = 0 then (if p = 0 then SymNum.nan else SymNum.zoo) else SymNum.rat (p / q)

/-- `sum(six.itervalues(weights))`: the sum of the weights of a mapping. -/
def weightSum (weights : List (α × ℚ)) : ℚ :=
  (weights.map Prod.snd).sum

/-- `normalize_weights(weights)`: maps every entry `i ↦ w` of the weight
dictionary to `i ↦ sympy.Rational(w, weight_sum)`.  Modelled as fallible
(`Except`) because the specification asserts a failure mode; in fact no
input raises, since `sympy.Rational` never raises on a zero denominator
(it returns `nan`/`zoo`, see `symRational`). -/
def normalize_weights (weights : List (α × ℚ)) : Except String (List (α × SymNum)) :=
  Except.ok (weights.map (fun iw => (iw.1, symRational iw.2 (weightSum weights))))

/-- The ordinary-rational reading of `normalize_weights`, meaningful
whenever the weight sum is nonzero: entry `i ↦ w` becomes `i ↦ w / sum`. -/
def normalizeWeightsQ (weights : List (α × ℚ)) : List (α × ℚ) :=
  weights.map (fun iw => (iw.1, iw.2 / weightSum weights))

theorem normalize_weights_of_sum_ne_zero (weights : List (α × ℚ))
    (h : weightSum weights ≠ 0) :
    normalize_weights weights =
      Except.ok ((normalizeWeightsQ weights).map (fun iw => (iw.1, SymNum.rat iw.2))) := by
  simp only [normalize_weights, normalizeWeightsQ, List.map_map, symRational, if_neg h]
  rfl

theorem sum_map_div (l : List (α × ℚ)) (S : ℚ) :
    (l.map (fun iw => iw.2 / S)).sum = (l.map Prod.snd).sum / S := by
  induction l with
  | nil => simp
  | cons x xs ih => simp [ih, add_div]

/-! ## Events

The four concrete `Event` subclasses of the Python module.  A Python set
of values is embedded as a `List` read up to membership; theorems that
depend on set semantics carry `Nodup` hypotheses. -/

/-- The four concrete event kinds: `DiscreteEvent` (a set of values),
`FiniteProductEvent` (a tuple of component events), `CountLevelSetEvent`
(a dictionary mapping a value to its required occurrence count), and
`SequenceEvent` (an explicit set of sequences). -/
inductive Event (α : Type) : Type where
  | discreteEvent (values : List α)
  | finiteProductEvent (events : List (Event α))
  | countLevelSetEvent (counts : List (α × ℕ))
  | sequenceEvent (sequences : List (List α))

/-- The value set of a component event when it is a `DiscreteEvent`
(the `isinstance` check inside `FiniteProductEvent.all_sequences`). -/
def discreteValues : Event α → Option (List α)
  | Event.discreteEvent vs => some vs
  | _ => none

/-- `itertools.product(*values_list)`: cartesian product of a list of
lists, leftmost coordinate varying slowest. -/
def itertoolsProduct : List (List α) → List (List α)
  | [] => [[]]
  | l :: ls => l.flatMap (fun x => (itertoolsProduct ls).map (fun t => x :: t))

/-- The remaining total count of a label/count list. -/
def totalCount (counts : List (α × ℕ)) : ℕ :=
  (counts.map Prod.snd).sum

omit [DecidableEq α] in
/-- One recursion step bookkeeping: decrementing a positive entry of
`counts` decreases the total count by exactly one. -/
theorem totalCount_set_pred (counts : List (α × ℕ)) (i : ℕ) (a : α) (k : ℕ)
    (hget : counts[i]? = some (a, k)) (hk : k ≠ 0) :
    totalCount (counts.set i (a, k - 1)) + 1 = totalCount counts := by
  induction counts generalizing i with
  | nil => simp at hget
  | cons c cs ih =>
    cases i with
    | zero =>
      simp only [List.getElem?_cons_zero, Option.some.injEq] at hget
      subst hget
      simp only [totalCount, List.set_cons_zero, List.map_cons, List.sum_cons]
      omega
    | succ j =>
      simp only [List.getElem?_cons_succ] at hget
      simp only [totalCount, List.set_cons_succ, List.map_cons, List.sum_cons]
      have := ih j hget
      simp only [totalCount] at this
      omega

/-- The recursive generator inside `CountLevelSetEvent.all_sequences`,
with an explicit recursion-depth bound `fuel`.  The Python code keeps
the label list `labels = counts.keys()` and the count tuple side by side
and recurses on the count tuple; here the two are kept zipped as one
list of pairs, which the recursion never reorders, so `counts[i]` is the
count attached to `labels[i]`.  Base case: when all counts are zero the
single empty sequence is returned.  Recursive case: for each position
`i` with nonzero count (in dictionary order), prepend `labels[i]` to
every sequence generated from the counts with position `i` decremented,
and concatenate the results.  Each recursive call decreases the total
count by exactly one, so any `fuel ≥ totalCount counts` computes the
Python recursion (see `generateAux_fuel_irrel`); the `fuel = 0, total
count ≠ 0` branch is unreachable from `generate`.  The Python
memoization cache only avoids recomputation and does not change the
value. -/
def generateAux (fuel : ℕ) (counts : List (α × ℕ)) : List (List α) :=
  if totalCount counts = 0 then [[]]
  else
    match fuel with
    | 0 => []
    | fuel' + 1 =>
      (List.range counts.length).flatMap (fun i =>
        match counts[i]? with
        | none => []
        | some (a, k) =>
          if k = 0 then []
          else (generateAux fuel' (counts.set i (a, k - 1))).map
            (fun extension => a :: extension))

/-- `generate(counts)` from `CountLevelSetEvent.all_sequences`: the
fuelled recursion started with enough fuel. -/
def generate (counts : List (α × ℕ)) : List (List α) :=
  generateAux (totalCount counts) counts

omit [DecidableEq α] in
/-- The fuel bound is irrelevant as long as it is at least the total
count: `generateAux` computes the same list for any sufficient fuel. -/
theorem generateAux_fuel_irrel (fuel₁ fuel₂ : ℕ) (counts : List (α × ℕ))
    (h₁ : totalCount counts ≤ fuel₁) (h₂ : totalCount counts ≤ fuel₂) :
    generateAux fuel₁ counts = generateAux fuel₂ counts := by
  induction fuel₁ generalizing fuel₂ counts with
  | zero =>
    have h0 : totalCount counts = 0 := Nat.le_zero.mp h₁
    rw [generateAux.eq_def, generateAux.eq_def, if_pos h0, if_pos h0]
  | succ f ih =>
    by_cases h0 : totalCount counts = 0
    · rw [generateAux.eq_def, generateAux.eq_def, if_pos h0, if_pos h0]
    · cases fuel₂ with
      | zero => omega
      | succ g =>
        rw [generateAux.eq_def, generateAux.eq_def, if_neg h0, if_neg h0]
        show ((List.range counts.length).flatMap fun i =>
            match counts[i]? with
            | none => []
            | some (a, k) =>
              if k = 0 then []
              else (generateAux f (counts.set i (a, k - 1))).map
                (fun extension => a :: extension))
          = ((List.range counts.length).flatMap fun i =>
            match counts[i]? with
            | none => []
            | some (a, k) =>
              if k = 0 then []
              else (generateAux g (counts.set i (a, k - 1))).map
                (fun extension => a :: extension))
        have hfun : ∀ i : ℕ,
            (match counts[i]? with
              | none => ([] : List (List α))
              | some (a, k) =>
                if k = 0 then []
                else (generateAux f (counts.set i (a, k - 1))).map
                  (fun extension => a :: extension))
            = (match counts[i]? with
              | none => []
              | some (a, k) =>
                if k = 0 then []
                else (generateAux g (counts.set i (a, k - 1))).map
                  (fun extension => a :: extension)) := by
          intro i
          cases hget : counts[i]? with
          | none => rfl
          | some ak =>
            obtain ⟨a, k⟩ := ak
            by_cases hk : k = 0
            · simp only [if_pos hk]
            · have hlt := totalCount_set_pred counts i a k hget hk
              simp only [if_neg hk]
              rw [ih g (counts.set i (a, k - 1)) (by omega) (by omega)]
        exact congrArg _ (funext hfun)

/-- `CountLevelSetEvent.all_sequences()`: run `generate` on the counts
dictionary. -/
def countLevelSetSequences (counts : List (α × ℕ)) : List (List α) :=
  generate counts

/-- `event.all_sequences()` across the event kinds.  `DiscreteEvent` has
no such method (`AttributeError` in Python); `FiniteProductEvent` raises
`ValueError` when a component is not a `DiscreteEvent`. -/
def allSequences : Event α → Except String (List (List α))
  | Event.discreteEvent _ => Except.error "AttributeError"
  | Event.finiteProductEvent events =>
      match events.mapM discreteValues with
      | some valuesList => Except.ok (itertoolsProduct valuesList)
      | none => Except.error "Not all component events are DiscreteEvents"
  | Event.countLevelSetEvent counts => Except.ok (countLevelSetSequences counts)
  | Event.sequenceEvent sequences => Except.ok sequences

/-! ## Probability spaces -/

/-- First-match dictionary lookup: `d[x]` when `x in d`, else `none`.
On a Python dictionary (distinct keys) at most one entry matches. -/
def dictGet {ν : Type} (d : List (α × ν)) (x : α) : Option ν :=
  match d with
  | [] => none
  | kv :: rest => if kv.1 = x then some kv.2 else dictGet rest x

/-- `DiscreteProbabilitySpace.probability`: on a `DiscreteEvent`, the sum
of the space's weights over the event's values that are present in the
weight dictionary (`sum(self._weights[value] for value in event.values
if value in self._weights)`); any other event kind raises `ValueError`. -/
def discreteProbability (weights : List (α × ℚ)) : Event α → Except String ℚ
  | Event.discreteEvent values =>
      Except.ok (((values.filter (fun v => (dictGet weights v).isSome)).map
        (fun v => (dictGet weights v).getD 0)).sum)
  | _ => Except.error "Unhandled event type"

/-- The probability a discrete space assigns to the singleton event
`DiscreteEvent({v})`: the weight of `v`, or `0` when `v` is absent. -/
def singletonProbability (weights : List (α × ℚ)) (v : α) : ℚ :=
  (dictGet weights v).getD 0

theorem discreteProbability_singleton (weights : List (α × ℚ)) (v : α) :
    discreteProbability weights (Event.discreteEvent [v]) =
      Except.ok (singletonProbability weights v) := by
  simp only [discreteProbability, singletonProbability]
  cases h : dictGet weights v <;> simp [List.filter, h]

/-- `FiniteProductSpace.all_spaces_equal()`: every component space equals
the first one.  Python compares the space objects with `==` (which for
these classes is object identity); component spaces are embedded by
their weight dictionaries, so equal dictionaries stand for the equal
(shared) space object of the specification. -/
def allSpacesEqual (spaces : List (List (α × ℚ))) : Bool :=
  spaces.all (fun space => spaces.headI = space)

/-- `FiniteProductSpace.probability` over discrete component spaces.
For a `FiniteProductEvent` of matching arity: the product of each
component space's probability of its component event.
For a `CountLevelSetEvent` when all component spaces are equal: the
multinomial closed form `n!/∏ kᵥ! · ∏ pᵥ^kᵥ` with `pᵥ` the shared
space's singleton probability (`spaces[0]` raises `IndexError` on an
empty product space).  Anything else raises `ValueError`. -/
def finiteProductProbability (spaces : List (List (α × ℚ))) : Event α → Except String ℚ
  | Event.finiteProductEvent events =>
      if spaces.length = events.length then
        Except.map (fun ps => ps.prod)
          ((spaces.zip events).mapM (fun p => discreteProbability p.1 p.2))
      else Except.error "AssertionError"
  | Event.countLevelSetEvent counts =>
      if allSpacesEqual spaces then
        match spaces with
        | [] => Except.error "IndexError"
        | space :: rest =>
          if totalCount counts = (space :: rest).length then
            let coeff : ℚ := (Nat.factorial (totalCount counts) : ℚ) /
              ((counts.map (fun ck => Nat.factorial ck.2)).prod : ℕ)
            Except.ok (coeff *
              (counts.map (fun ck => singletonProbability space ck.1 ^ ck.2)).prod)
          else Except.error "AssertionError"
      else Except.error "Unhandled event type"
  | _ => Except.error "Unhandled event type"

/-- A `SampleWithoutReplacementSpace` after construction: its normalized
weight dictionary (in its exact-rational reading) and the number of
samples to draw. -/
structure SampleWithoutReplacementSpace (α : Type) : Type where
  weights : List (α × ℚ)
  n_samples : ℕ

/-- `SampleWithoutReplacementSpace.__init__`: raises `ValueError` when
`n_samples > len(weights)` (the number of entries of the weight
dictionary), otherwise normalizes the weights and stores them together
with `n_samples`. -/
def sampleWithoutReplacementInit (weights : List (α × ℚ)) (n_samples : ℕ) :
    Except String (List (α × SymNum) × ℕ) :=
  if weights.length < n_samples then
    Except.error "n_samples is more than number of discrete elements"
  else
    Except.map (fun nw => (nw, n_samples)) (normalize_weights weights)

/-- The loop body of `SampleWithoutReplacementSpace.probability` for one
sequence: iterate the sequence left to right with accumulator
`p_sequence` (starting at 1) and `removed_prob` (starting at 0); look up
`p = weights[i] if i in weights else 0`; on `p = 0` set the sequence
probability to zero and break; otherwise multiply `p_sequence` by
`p / (1 - removed_prob)` and add `p` to `removed_prob`. -/
def pSequenceLoop (weights : List (α × ℚ)) : List α → ℚ → ℚ → ℚ
  | [], p_sequence, _ => p_sequence
  | i :: rest, p_sequence, removed_prob =>
    let p := (dictGet weights i).getD 0
    if p = 0 then 0
    else pSequenceLoop weights rest (p_sequence * (p / (1 - removed_prob))) (removed_prob + p)

/-- `SampleWithoutReplacementSpace.probability`: obtain
`event.all_sequences()` (an `AttributeError` is converted to the
`ValueError('Unhandled event type ...')`, any other failure
propagates); skip every sequence with a repeated element
(`len(sequence) != len(set(sequence))`); sum the per-sequence chain-rule
probabilities of the remaining sequences. -/
def swrProbability (sp : SampleWithoutReplacementSpace α) (event : Event α) :
    Except String ℚ :=
  match allSequences event with
  | Except.error e =>
      if e = "AttributeError" then Except.error "Unhandled event type"
      else Except.error e
  | Except.ok all_seqs =>
      Except.ok (((all_seqs.filter (fun s => s.dedup.length = s.length)).map
        (fun s => pSequenceLoop sp.weights s 1 0)).sum)

/-! ## Random variables -/

/-- `DiscreteRandomVariable.__call__` on a `DiscreteEvent`: the set of
images `{mapping[value] for value in event.values}`; a value absent from
the mapping raises `KeyError`, any other event kind `ValueError`.  The
image list is read up to membership (Python builds a set). -/
def discreteRandomVariableCall (mapping : List (β × α)) : Event β → Except String (Event α)
  | Event.discreteEvent values =>
      match values.mapM (fun v => dictGet mapping v) with
      | some images => Except.ok (Event.discreteEvent images)
      | none => Except.error "KeyError"
  | _ => Except.error "Unhandled event type"

/-- The preimage set `self._inverse[a]` of a `DiscreteRandomVariable`:
all keys of the mapping whose image is `a` (the constructor groups the
mapping's keys by image; a Python dictionary's keys are distinct). -/
def inverseIndex (mapping : List (β × α)) (a : α) : List β :=
  (mapping.filter (fun kv => kv.2 = a)).map Prod.fst

/-- `DiscreteRandomVariable.inverse` on a `DiscreteEvent`: the union of
the precomputed preimage sets of the event's values (values with no
preimage contribute nothing); any other event kind raises `ValueError`. -/
def discreteRandomVariableInverse (mapping : List (β × α)) : Event α → Except String (Event β)
  | Event.discreteEvent values =>
      Except.ok (Event.discreteEvent (values.flatMap (fun a => inverseIndex mapping a)))
  | _ => Except.error "Unhandled event type"

/-- The fallback loop of `FiniteProductRandomVariable.inverse`: for each
sequence of the event (asserting its length equals the arity), form the
cartesian product of the element-wise singleton preimages
`rv.inverse(DiscreteEvent({element}))` and add its sequences to the
accumulated set `mapped` (set update embedded as appending the not yet
present sequences). -/
def fpInverseFallbackLoop (random_variables : List (List (β × α))) :
    List (List α) → List (List β) → Except String (List (List β))
  | [], mapped => Except.ok mapped
  | sequence :: rest, mapped =>
    if sequence.length = random_variables.length then
      let newSeqs := itertoolsProduct
        ((random_variables.zip sequence).map (fun p => inverseIndex p.1 p.2))
      fpInverseFallbackLoop random_variables rest
        (mapped ++ newSeqs.filter (fun t => ¬ t ∈ mapped))
    else Except.error "AssertionError"

/-- `FiniteProductRandomVariable.inverse` with `DiscreteRandomVariable`
components.  A `FiniteProductEvent` of matching arity is inverse-mapped
component-wise; an event with no `all_sequences()` raises the
`ValueError('Unhandled event type ...')`; otherwise every sequence of the
event is inverse-mapped element-wise and the resulting sequence sets are
unioned into a `SequenceEvent`. -/
def fpInverse (random_variables : List (List (β × α))) (event : Event α) :
    Except String (Event β) :=
  match event with
  | Event.finiteProductEvent events =>
      if events.length = random_variables.length then
        Except.map (fun invs => Event.finiteProductEvent invs)
          ((random_variables.zip events).mapM
            (fun p => discreteRandomVariableInverse p.1 p.2))
      else Except.error "AssertionError"
  | _ =>
    match allSequences event with
    | Except.error e =>
        if e = "AttributeError" then Except.error "Unhandled event type"
        else Except.error e
    | Except.ok all_seqs =>
        Except.map (fun mapped => Event.sequenceEvent mapped)
          (fpInverseFallbackLoop random_variables all_seqs [])

/-! ## Specification-side definitions

These definitions transcribe the specification's wording for the
properties that compare a closed form against naive enumeration; the
claims equate them with the code-side definitions above. -/

/-- The specification's order-dependent conditional chain rule for one
sequence: iterate left to right, at each step the conditional draw
probability is `weight(value) / (1 - removed_prob)`, then accumulate
`removed_prob += weight(value)`. -/
def specConditionalProduct (weights : List (α × ℚ)) : List α → ℚ → ℚ
  | [], _ => 1
  | x :: rest, removed_prob =>
    (singletonProbability weights x / (1 - removed_prob)) *
      specConditionalProduct weights rest (removed_prob + singletonProbability weights x)

/-- The specification's probability of one sequence in a
without-replacement space: the conditional chain product, or zero when
some value of the sequence has zero or undefined weight. -/
def specSequenceProbability (weights : List (α × ℚ)) (s : List α) : ℚ :=
  if ∀ x ∈ s, singletonProbability weights x ≠ 0 then
    specConditionalProduct weights s 0
  else 0

/-- The specification's total without-replacement probability of an
event: the sum over the event's sequences of the per-sequence chain-rule
probability, where a sequence with a repeated value contributes zero. -/
def specSwrProbability (weights : List (α × ℚ)) (seqs : List (List α)) : ℚ :=
  (seqs.map (fun s => if s.Nodup then specSequenceProbability weights s else 0)).sum

/-- The specification's naive enumeration for a product space: sum, over
the event's sequences, of the product of the per-coordinate component
space probabilities of the sequence's elements. -/
def bruteForceProductProbability (spaces : List (List (α × ℚ)))
    (seqs : List (List α)) : ℚ :=
  (seqs.map (fun s =>
    ((spaces.zip s).map (fun p => singletonProbability p.1 p.2)).prod)).sum

/-! ## Basic lemmas -/

theorem dictGet_some_mem {ν : Type} (d : List (α × ν)) (x : α) (y : ν)
    (h : dictGet d x = some y) : (x, y) ∈ d := by
  induction d with
  | nil => simp [dictGet] at h
  | cons kv rest ih =>
    rw [dictGet] at h
    by_cases hk : kv.1 = x
    · rw [if_pos hk] at h
      apply List.mem_cons.mpr
      left
      cases kv
      simp_all [Prod.ext_iff]
    · rw [if_neg hk] at h
      exact List.mem_cons_of_mem _ (ih h)

/-! ## C4: `normalize_weights` on a zero weight sum -/

/-- C4 (counterexample): the weight mapping `{0: 0}` sums to zero, yet
`normalize_weights` does not fail: it returns the mapping `{0: nan}`
(`sympy.Rational(0, 0)` is `nan`, not an exception). -/
theorem C4_counterexample :
    weightSum [((0 : ℕ), (0 : ℚ))] = 0 ∧
      normalize_weights [((0 : ℕ), (0 : ℚ))] = Except.ok [(0, SymNum.nan)] := by
  constructor
  · simp [weightSum]
  · simp [normalize_weights, symRational, weightSum]

/-- C4 (amended): for every weight mapping whose weights sum to zero,
`normalize_weights` does not raise: it returns the mapping sending each
entry `i ↦ w` to sympy's `Rational(w, 0)`, i.e. `nan` for `w = 0` and
complex infinity (`zoo`) otherwise, deferring any failure to later use
of those non-finite values. -/
theorem C4_zero_sum_returns_mapping (w : List (α × ℚ)) (h : weightSum w = 0) :
    normalize_weights w =
      Except.ok (w.map (fun iw =>
        (iw.1, if iw.2 = 0 then SymNum.nan else SymNum.zoo))) := by
  simp only [normalize_weights, symRational, h, if_pos rfl, Except.ok.injEq]
  apply List.map_congr_left
  intro iw _
  simp

/-- C4 (witness): the zero-sum mapping `{0: 1, 1: -1}` is mapped to
`{0: zoo, 1: zoo}` rather than failing. -/
theorem C4_zero_sum_returns_mapping_witness :
    normalize_weights [((0 : ℕ), (1 : ℚ)), (1, -1)] =
      Except.ok [(0, SymNum.zoo), (1, SymNum.zoo)] :=
  (C4_zero_sum_returns_mapping [((0 : ℕ), (1 : ℚ)), (1, -1)] (by norm_num [weightSum])).trans
    (by norm_num)

/-! ## C9: exactness of `normalize_weights` -/

/-- C9: for every weight mapping of non-negative weights with positive
sum, `normalize_weights` maps each entry `i ↦ w` to the exact rational
`w / sum`, and the returned probabilities sum exactly to 1. -/
theorem C9_normalize_weights_exact (w : List (α × ℚ))
    (hnn : ∀ p ∈ w, 0 ≤ p.2) (hpos : 0 < weightSum w)
    (hkeys : (w.map Prod.fst).Nodup) :
    normalize_weights w =
      Except.ok (w.map (fun iw => (iw.1, SymNum.rat (iw.2 / weightSum w)))) ∧
      (w.map (fun iw => iw.2 / weightSum w)).sum = 1 := by
  constructor
  · rw [normalize_weights_of_sum_ne_zero w (ne_of_gt hpos)]
    simp [normalizeWeightsQ]
  · rw [sum_map_div]
    exact div_self (ne_of_gt hpos)

/-- C9 (witness): the mapping `{0: 1, 1: 3}` normalizes to
`{0: 1/4, 1: 3/4}`, which sums to 1. -/
theorem C9_normalize_weights_exact_witness :
    normalize_weights [((0 : ℕ), (1 : ℚ)), (1, 3)] =
      Except.ok [(0, SymNum.rat (1 / 4)), (1, SymNum.rat (3 / 4))] ∧
      ((1 : ℚ) / 4) + 3 / 4 = 1 := by
  have h := C9_normalize_weights_exact [((0 : ℕ), (1 : ℚ)), (1, 3)]
    (by intro p hp; simp only [List.mem_cons, List.not_mem_nil, or_false] at hp
        rcases hp with rfl | rfl <;> norm_num)
    (by norm_num [weightSum]) (by decide)
  exact ⟨h.1.trans (by norm_num [weightSum]), by norm_num⟩

/-! ## C10: `SampleWithoutReplacementSpace` construction -/

/-- C10: construction of a `SampleWithoutReplacementSpace` fails if and
only if `n_samples` exceeds the number of distinct weighted values (the
size of the weight dictionary); the check happens in `__init__`, before
any probability query. -/
theorem C10_swr_construction (w : List (α × ℚ)) (n : ℕ)
    (hkeys : (w.map Prod.fst).Nodup) :
    (∃ e, sampleWithoutReplacementInit w n = Except.error e) ↔ w.length < n := by
  unfold sampleWithoutReplacementInit
  by_cases h : w.length < n
  · simp [h]
  · simp [h, normalize_weights, Except.map]

/-- C10 (witness): with one weighted value and `n_samples = 2`,
construction fails; with `n_samples = 1` it succeeds. -/
theorem C10_swr_construction_witness :
    (∃ e, sampleWithoutReplacementInit [((0 : ℕ), (1 : ℚ))] 2 = Except.error e) ∧
      ¬ (∃ e, sampleWithoutReplacementInit [((0 : ℕ), (1 : ℚ))] 1 = Except.error e) :=
  ⟨(C10_swr_construction [((0 : ℕ), (1 : ℚ))] 2 (by decide)).mpr (by simp),
   fun h =>
    absurd ((C10_swr_construction [((0 : ℕ), (1 : ℚ))] 1 (by decide)).mp h) (by simp)⟩

/-! ## C6: `DiscreteProbabilitySpace.probability` -/

theorem filter_isSome_sum_eq (W : List (α × ℚ)) (values : List α) :
    ((values.filter (fun v => (dictGet W v).isSome)).map
        (fun v => (dictGet W v).getD 0)).sum
      = (values.map (fun v => (dictGet W v).getD 0)).sum := by
  induction values with
  | nil => rfl
  | cons x xs ih =>
    rw [List.filter_cons]
    cases h : dictGet W x with
    | none => simp [h, ih]
    | some q => simp [h, ih]

/-- Summing the looked-up weight over the (distinct) keys of a
dictionary returns the sum of the dictionary's values. -/
theorem sum_dictGet_keys (d : List (α × ℚ)) (hkeys : (d.map Prod.fst).Nodup) :
    ((d.map Prod.fst).map (fun v => (dictGet d v).getD 0)).sum
      = (d.map Prod.snd).sum := by
  induction d with
  | nil => rfl
  | cons kv rest ih =>
    simp only [List.map_cons, List.nodup_cons] at hkeys
    obtain ⟨hk, hrest⟩ := hkeys
    have h1 : dictGet (kv :: rest) kv.1 = some kv.2 := by rw [dictGet, if_pos rfl]
    have h2 : (rest.map Prod.fst).map (fun v => (dictGet (kv :: rest) v).getD 0)
        = (rest.map Prod.fst).map (fun v => (dictGet rest v).getD 0) := by
      apply List.map_congr_left
      intro a ha
      have hne : kv.1 ≠ a := fun he => hk (he ▸ ha)
      rw [dictGet, if_neg hne]
    simp only [List.map_cons, List.sum_cons, h1, h2, ih hrest, Option.getD_some]

theorem normalizeWeightsQ_keys (w : List (α × ℚ)) :
    (normalizeWeightsQ w).map Prod.fst = w.map Prod.fst := by
  simp [normalizeWeightsQ]

/-- C6: a `DiscreteProbabilitySpace` (the normalization of a weight
mapping with nonzero sum and distinct keys) assigns to any
`DiscreteEvent` the sum of the normalized weights of its values, absent
values contributing `0`; any other event kind is a `ValueError`; the
event of all weighted values has probability exactly `1` and the empty
event probability `0`. -/
theorem C6_discrete_probability (w : List (α × ℚ))
    (hsum : weightSum w ≠ 0) (hkeys : (w.map Prod.fst).Nodup) :
    (∀ values : List α,
        discreteProbability (normalizeWeightsQ w) (Event.discreteEvent values) =
          Except.ok ((values.map
            (fun v => (dictGet (normalizeWeightsQ w) v).getD 0)).sum)) ∧
      (∀ event : Event α, (∀ vs, event ≠ Event.discreteEvent vs) →
        ∃ e, discreteProbability (normalizeWeightsQ w) event = Except.error e) ∧
      discreteProbability (normalizeWeightsQ w)
          (Event.discreteEvent (w.map Prod.fst)) = Except.ok 1 ∧
      discreteProbability (normalizeWeightsQ w) (Event.discreteEvent []) =
        Except.ok 0 := by
  have hkeysN : ((normalizeWeightsQ w).map Prod.fst).Nodup := by
    rw [normalizeWeightsQ_keys]; exact hkeys
  refine ⟨?_, ?_, ?_, rfl⟩
  · intro values
    rw [discreteProbability, filter_isSome_sum_eq]
  · intro event hne
    cases event with
    | discreteEvent vs => exact absurd rfl (hne vs)
    | finiteProductEvent _ => exact ⟨_, rfl⟩
    | countLevelSetEvent _ => exact ⟨_, rfl⟩
    | sequenceEvent _ => exact ⟨_, rfl⟩
  · rw [discreteProbability, filter_isSome_sum_eq, ← normalizeWeightsQ_keys w,
      sum_dictGet_keys _ hkeysN]
    have : (normalizeWeightsQ w).map Prod.snd = w.map (fun iw => iw.2 / weightSum w) := by
      simp [normalizeWeightsQ]
    rw [this, sum_map_div]
    have hws : (w.map Prod.snd).sum = weightSum w := rfl
    rw [hws, div_self hsum]

/-- C6 (witness): the space normalizing `{0: 1, 1: 1}` gives the event
`{0}` probability `1/2`, the event `{0, 1}` probability `1`, the empty
event probability `0`, and rejects a `SequenceEvent`. -/
theorem C6_discrete_probability_witness :
    discreteProbability (normalizeWeightsQ [((0 : ℕ), (1 : ℚ)), (1, 1)])
        (Event.discreteEvent [0, 1]) = Except.ok 1 ∧
      discreteProbability (normalizeWeightsQ [((0 : ℕ), (1 : ℚ)), (1, 1)])
        (Event.discreteEvent []) = Except.ok 0 ∧
      ∃ e, discreteProbability (normalizeWeightsQ [((0 : ℕ), (1 : ℚ)), (1, 1)])
        (Event.sequenceEvent []) = Except.error e := by
  have h := C6_discrete_probability [((0 : ℕ), (1 : ℚ)), (1, 1)]
    (by norm_num [weightSum]) (by decide)
  exact ⟨h.2.2.1, h.2.2.2, h.2.1 (Event.sequenceEvent []) (by intro vs hv; cases hv)⟩

/-! ## C8: `DiscreteRandomVariable` round trip -/

/-- C8: for a `DiscreteRandomVariable` and an input `v` in its mapping's
domain (with image `o`), forwarding the singleton event `{v}` gives the
event `{o}`, and inverting that event yields a `DiscreteEvent` whose
value set contains `v`. -/
theorem C8_discrete_rv_round_trip (mapping : List (β × α)) (v : β) (o : α)
    (h : dictGet mapping v = some o) :
    discreteRandomVariableCall mapping (Event.discreteEvent [v]) =
        Except.ok (Event.discreteEvent [o]) ∧
      ∃ pre, discreteRandomVariableInverse mapping (Event.discreteEvent [o]) =
          Except.ok (Event.discreteEvent pre) ∧ v ∈ pre := by
  constructor
  · simp [discreteRandomVariableCall, List.mapM.loop, h]
  · refine ⟨[o].flatMap (fun a => inverseIndex mapping a), rfl, ?_⟩
    simp only [List.flatMap_cons, List.flatMap_nil, List.append_nil]
    unfold inverseIndex
    have hm : (v, o) ∈ mapping := dictGet_some_mem mapping v o h
    exact List.mem_map.mpr ⟨(v, o), List.mem_filter.mpr ⟨hm, by simp⟩, rfl⟩

/-- C8 (witness): in the mapping `{0 ↦ 5, 1 ↦ 5}` (two inputs with the
same image), the round trip on input `1` never loses `1`. -/
theorem C8_discrete_rv_round_trip_witness :
    discreteRandomVariableCall [((0 : ℕ), (5 : ℕ)), (1, 5)]
        (Event.discreteEvent [1]) = Except.ok (Event.discreteEvent [5]) ∧
      ∃ pre, discreteRandomVariableInverse [((0 : ℕ), (5 : ℕ)), (1, 5)]
          (Event.discreteEvent [5]) = Except.ok (Event.discreteEvent pre) ∧
        1 ∈ pre :=
  C8_discrete_rv_round_trip [((0 : ℕ), (5 : ℕ)), (1, 5)] 1 5 (by decide)

/-! ## C1 and C5: `SampleWithoutReplacementSpace.probability` -/

/-- The imperative per-sequence loop equals the specification's
conditional chain product: the final accumulator is the initial one
times the product of the conditional draw probabilities, and zero as
soon as some element has zero (or missing) weight. -/
theorem pSequenceLoop_eq_spec (weights : List (α × ℚ)) (s : List α) (ps removed : ℚ) :
    pSequenceLoop weights s ps removed =
      if ∀ x ∈ s, singletonProbability weights x ≠ 0 then
        ps * specConditionalProduct weights s removed
      else 0 := by
  induction s generalizing ps removed with
  | nil => simp [pSequenceLoop, specConditionalProduct]
  | cons x rest ih =>
    show (if (dictGet weights x).getD 0 = 0 then 0
        else pSequenceLoop weights rest
          (ps * ((dictGet weights x).getD 0 / (1 - removed)))
          (removed + (dictGet weights x).getD 0)) = _
    by_cases hx : (dictGet weights x).getD 0 = 0
    · rw [if_pos hx, if_neg]
      intro hall
      exact (hall x (List.mem_cons_self x rest)) hx
    · rw [if_neg hx, ih]
      by_cases hall : ∀ y ∈ rest, singletonProbability weights y ≠ 0
      · rw [if_pos hall, if_pos]
        · show _ = ps * ((singletonProbability weights x / (1 - removed)) *
            specConditionalProduct weights rest (removed + singletonProbability weights x))
          show ps * ((dictGet weights x).getD 0 / (1 - removed)) *
              specConditionalProduct weights rest (removed + (dictGet weights x).getD 0) = _
          rw [mul_assoc]
          rfl
        · intro y hy
          rcases List.mem_cons.mp hy with rfl | hy'
          · exact hx
          · exact hall y hy'
      · rw [if_neg hall, if_neg]
        intro hcons
        exact hall fun y hy => hcons y (List.mem_cons_of_mem x hy)

/-- The Python distinctness test `len(sequence) == len(set(sequence))`
holds exactly for duplicate-free sequences. -/
theorem dedup_length_iff_nodup (s : List α) :
    s.dedup.length = s.length ↔ s.Nodup := by
  constructor
  · intro h
    have hsub : s.dedup.Sublist s := List.dedup_sublist s
    have heq : s.dedup = s := hsub.eq_of_length h
    rw [← heq]
    exact List.nodup_dedup s
  · intro h
    rw [List.dedup_eq_self.mpr h]

/-- Skipping the non-distinct sequences and summing is the same as
summing a term that is zero on non-distinct sequences. -/
theorem sum_filter_nodup_eq (seqs : List (List α)) (f : List α → ℚ) :
    ((seqs.filter (fun s => s.dedup.length = s.length)).map f).sum
      = (seqs.map (fun s => if s.Nodup then f s else 0)).sum := by
  induction seqs with
  | nil => rfl
  | cons s rest ih =>
    rw [List.filter_cons]
    by_cases h : s.Nodup
    · have hd : decide (s.dedup.length = s.length) = true := by
        simp [dedup_length_iff_nodup, h]
      simp only [hd, if_true, List.map_cons, List.sum_cons, ih, if_pos h]
    · have hd : decide (s.dedup.length = s.length) = false := by
        simp [dedup_length_iff_nodup, h]
      simp only [hd, Bool.false_eq_true, if_false, ih, List.map_cons, List.sum_cons,
        if_neg h, zero_add]

/-- C1: for every sample-without-replacement space (a normalized weight
dictionary: distinct keys, non-negative weights summing to 1) and every
event supporting `all_sequences()`, `probability(event)` is the sum, over
the event's sequences, of the specification's chain-rule probability —
zero for a sequence with a repeated value or a value of zero or missing
weight, and otherwise the left-to-right product of
`weight(value) / (1 - removed_prob)`.  In particular, for weights
`{A:1, B:1, C:1}` and `n_samples = 2`, the sequence event `{(A,B)}` has
probability `1/6` and the count-level-set event `{A:1, B:1}` has
probability `1/3`. -/
theorem C1_swr_probability (sp : SampleWithoutReplacementSpace α) (event : Event α)
    (seqs : List (List α)) (hseq : allSequences event = Except.ok seqs)
    (hnn : ∀ p ∈ sp.weights, 0 ≤ p.2) (hsum : weightSum sp.weights = 1)
    (hkeys : (sp.weights.map Prod.fst).Nodup) :
    swrProbability sp event = Except.ok (specSwrProbability sp.weights seqs) ∧
      swrProbability ⟨normalizeWeightsQ [((3 : ℕ), (1 : ℚ)), (4, 1), (5, 1)], 2⟩
          (Event.sequenceEvent [[3, 4]]) = Except.ok (1 / 6) ∧
      swrProbability ⟨normalizeWeightsQ [((3 : ℕ), (1 : ℚ)), (4, 1), (5, 1)], 2⟩
          (Event.countLevelSetEvent [(3, 1), (4, 1)]) = Except.ok (1 / 3) := by
  refine ⟨?_, ?_, ?_⟩
  · rw [swrProbability, hseq]
    show Except.ok (((seqs.filter (fun s => s.dedup.length = s.length)).map
        (fun s => pSequenceLoop sp.weights s 1 0)).sum) = _
    rw [sum_filter_nodup_eq]
    unfold specSwrProbability
    apply congrArg
    apply congrArg
    apply List.map_congr_left
    intro s hs
    by_cases h : s.Nodup
    · rw [if_pos h, if_pos h, pSequenceLoop_eq_spec]
      unfold specSequenceProbability
      by_cases hall : ∀ x ∈ s, singletonProbability sp.weights x ≠ 0
      · rw [if_pos hall, if_pos hall, one_mul]
      · rw [if_neg hall, if_neg hall]
    · rw [if_neg h, if_neg h]
  · norm_num [swrProbability, allSequences, normalizeWeightsQ, weightSum,
      pSequenceLoop, dictGet]
  · have hseqs : countLevelSetSequences [((3 : ℕ), 1), (4, 1)] = [[3, 4], [4, 3]] := by
      decide
    norm_num [swrProbability, allSequences, hseqs, normalizeWeightsQ, weightSum,
      pSequenceLoop, dictGet]

/-- C1 (witness): the space with normalized weights
`{0: 1/3, 1: 1/3, 2: 1/3}` and the sequence event `{(0, 1)}`. -/
theorem C1_swr_probability_witness :
    swrProbability ⟨normalizeWeightsQ [((3 : ℕ), (1 : ℚ)), (4, 1), (5, 1)], 2⟩
        (Event.sequenceEvent [[3, 4]])
      = Except.ok (specSwrProbability
          (normalizeWeightsQ [((3 : ℕ), (1 : ℚ)), (4, 1), (5, 1)]) [[3, 4]]) :=
  (C1_swr_probability ⟨normalizeWeightsQ [((3 : ℕ), (1 : ℚ)), (4, 1), (5, 1)], 2⟩
    (Event.sequenceEvent [[3, 4]]) [[3, 4]] rfl
    (by intro p hp
        simp only [normalizeWeightsQ, weightSum, List.map_cons, List.map_nil,
          List.mem_cons, List.not_mem_nil, or_false] at hp
        rcases hp with rfl | rfl | rfl <;> norm_num)
    (by norm_num [normalizeWeightsQ, weightSum])
    (by decide)).1

/-- C5: `SampleWithoutReplacementSpace.probability` never consults
`n_samples`: two spaces sharing a weight dictionary assign every event
the same probability whatever their `n_samples`, and on the space with
weights `{3: 1/3, 4: 1/3, 5: 1/3}` and `n_samples = 2` the sequence
events `{(3,)}` (length 1) and `{(3, 4, 5)}` (length 3) are accepted and
given their chain-rule probabilities `1/3` and `1/6`, not rejected
although their lengths differ from `n_samples`. -/
theorem C5_n_samples_ignored (w : List (α × ℚ)) (n₁ n₂ : ℕ) (event : Event α) :
    swrProbability ⟨w, n₁⟩ event = swrProbability ⟨w, n₂⟩ event ∧
      swrProbability ⟨normalizeWeightsQ [((3 : ℕ), (1 : ℚ)), (4, 1), (5, 1)], 2⟩
          (Event.sequenceEvent [[3]]) = Except.ok (1 / 3) ∧
      swrProbability ⟨normalizeWeightsQ [((3 : ℕ), (1 : ℚ)), (4, 1), (5, 1)], 2⟩
          (Event.sequenceEvent [[3, 4, 5]]) = Except.ok (1 / 6) := by
  refine ⟨rfl, ?_, ?_⟩ <;>
    norm_num [swrProbability, allSequences, normalizeWeightsQ, weightSum,
      pSequenceLoop, dictGet]

/-! ## C7: `FiniteProductRandomVariable.inverse` fallback -/

/-- The fallback loop accumulates exactly the union of the element-wise
preimage products: it succeeds when every sequence has the arity of the
product random variable, and a sequence belongs to the result exactly
when it was accumulated before or lies in some sequence's cartesian
product of singleton preimages. -/
theorem fpInverseFallbackLoop_mem (random_variables : List (List (β × α)))
    (seqs : List (List α)) (acc : List (List β))
    (hlen : ∀ s ∈ seqs, s.length = random_variables.length) :
    ∃ out, fpInverseFallbackLoop random_variables seqs acc = Except.ok out ∧
      ∀ t, t ∈ out ↔ t ∈ acc ∨ ∃ s ∈ seqs,
        t ∈ itertoolsProduct ((random_variables.zip s).map
          (fun p => inverseIndex p.1 p.2)) := by
  induction seqs generalizing acc with
  | nil => exact ⟨acc, rfl, fun t => by simp⟩
  | cons s rest ih =>
    have hs : s.length = random_variables.length := hlen s (List.mem_cons_self s rest)
    rw [fpInverseFallbackLoop, if_pos hs]
    obtain ⟨out, hout, hmem⟩ := ih
      (acc ++ (itertoolsProduct ((random_variables.zip s).map
        (fun p => inverseIndex p.1 p.2))).filter (fun t => ¬ t ∈ acc))
      (fun s' hs' => hlen s' (List.mem_cons_of_mem s hs'))
    refine ⟨out, hout, fun t => ?_⟩
    rw [hmem t]
    simp only [List.mem_append, List.mem_filter, List.mem_cons, decide_not,
      Bool.not_eq_eq_eq_not, Bool.not_true, decide_eq_false_iff_not]
    constructor
    · rintro ((h | ⟨h1, h2⟩) | ⟨s', hs', ht⟩)
      · exact Or.inl h
      · exact Or.inr ⟨s, Or.inl rfl, h1⟩
      · exact Or.inr ⟨s', Or.inr hs', ht⟩
    · rintro (h | ⟨s', hs' | hs', ht⟩)
      · exact Or.inl (Or.inl h)
      · subst hs'
        by_cases hacc : t ∈ acc
        · exact Or.inl (Or.inl hacc)
        · exact Or.inl (Or.inr ⟨ht, hacc⟩)
      · exact Or.inr ⟨s', hs', ht⟩

/-- On a non-`FiniteProductEvent` with sequences, `inverse` runs the
fallback loop on `event.all_sequences()` starting from the empty set. -/
theorem fpInverse_fallback_eq (random_variables : List (List (β × α)))
    (event : Event α) (seqs : List (List α))
    (hnotfp : ∀ evs, event ≠ Event.finiteProductEvent evs)
    (hseq : allSequences event = Except.ok seqs) :
    fpInverse random_variables event =
      Except.map (fun m => Event.sequenceEvent m)
        (fpInverseFallbackLoop random_variables seqs []) := by
  cases event with
  | finiteProductEvent evs => exact absurd rfl (hnotfp evs)
  | discreteEvent vs => simp [allSequences] at hseq
  | countLevelSetEvent counts =>
    show (match allSequences (Event.countLevelSetEvent counts) with
      | Except.error e =>
          if e = "AttributeError" then Except.error "Unhandled event type"
          else Except.error e
      | Except.ok all_seqs =>
          Except.map (fun m => Event.sequenceEvent m)
            (fpInverseFallbackLoop random_variables all_seqs [])) = _
    rw [hseq]
  | sequenceEvent sequences =>
    show (match allSequences (Event.sequenceEvent sequences) with
      | Except.error e =>
          if e = "AttributeError" then Except.error "Unhandled event type"
          else Except.error e
      | Except.ok all_seqs =>
          Except.map (fun m => Event.sequenceEvent m)
            (fpInverseFallbackLoop random_variables all_seqs [])) = _
    rw [hseq]

/-- C7: for a finite product random variable and any event that supports
`all_sequences()` but is not a `FiniteProductEvent`, with every sequence
of the event of the product's arity, `inverse(event)` is a
`SequenceEvent` whose sequence set is exactly the union, over the
event's sequences, of the cartesian product of the element-wise
singleton preimages through the corresponding component random
variables. -/
theorem C7_fp_inverse_fallback (random_variables : List (List (β × α)))
    (event : Event α) (seqs : List (List α))
    (hnotfp : ∀ evs, event ≠ Event.finiteProductEvent evs)
    (hseq : allSequences event = Except.ok seqs)
    (hlen : ∀ s ∈ seqs, s.length = random_variables.length) :
    ∃ mapped, fpInverse random_variables event =
        Except.ok (Event.sequenceEvent mapped) ∧
      ∀ t, t ∈ mapped ↔ ∃ s ∈ seqs,
        t ∈ itertoolsProduct ((random_variables.zip s).map
          (fun p => inverseIndex p.1 p.2)) := by
  obtain ⟨out, hout, hmem⟩ :=
    fpInverseFallbackLoop_mem random_variables seqs [] hlen
  refine ⟨out, ?_, fun t => by rw [hmem t]; simp⟩
  rw [fpInverse_fallback_eq random_variables event seqs hnotfp hseq, hout]
  rfl

/-- C7 (witness): two copies of the mapping `{0 ↦ 5, 1 ↦ 5}` and the
count-level-set event `{5: 2}` (sole sequence `(5, 5)`); the preimage is
the full cartesian product `{0, 1} × {0, 1}`. -/
theorem C7_fp_inverse_fallback_witness :
    ∃ mapped,
      fpInverse [[((0 : ℕ), (5 : ℕ)), (1, 5)], [(0, 5), (1, 5)]]
          (Event.countLevelSetEvent [(5, 2)]) =
        Except.ok (Event.sequenceEvent mapped) ∧
      ∀ t, t ∈ mapped ↔ ∃ s ∈ [[5, 5]],
        t ∈ itertoolsProduct
          (([[((0 : ℕ), (5 : ℕ)), (1, 5)], [(0, 5), (1, 5)]].zip s).map
            (fun p => inverseIndex p.1 p.2)) :=
  C7_fp_inverse_fallback [[((0 : ℕ), (5 : ℕ)), (1, 5)], [(0, 5), (1, 5)]]
    (Event.countLevelSetEvent [(5, 2)]) [[5, 5]]
    (fun evs h => Event.noConfusion h)
    (congrArg Except.ok (by decide))
    (by decide)

/-! ## C3: `CountLevelSetEvent.all_sequences` enumerates a multiset -/

/-- The multiset of values denoted by a counts dictionary: each key with
multiplicity its count. -/
def countsMultiset (counts : List (α × ℕ)) : Multiset α :=
  (counts.map (fun ck => Multiset.replicate ck.2 ck.1)).sum

omit [DecidableEq α] in
theorem countsMultiset_card (counts : List (α × ℕ)) :
    Multiset.card (countsMultiset counts) = totalCount counts := by
  induction counts with
  | nil => rfl
  | cons ck rest ih =>
    simp only [countsMultiset, totalCount, List.map_cons, List.sum_cons] at ih ⊢
    rw [Multiset.card_add, Multiset.card_replicate, ih]

omit [DecidableEq α] in
theorem countsMultiset_eq_zero (counts : List (α × ℕ))
    (h : totalCount counts = 0) : countsMultiset counts = 0 :=
  Multiset.card_eq_zero.mp (by rw [countsMultiset_card, h])

omit [DecidableEq α] in
/-- Decrementing a positive count removes exactly one copy of its key
from the denoted multiset. -/
theorem countsMultiset_set_pred (counts : List (α × ℕ)) (i : ℕ) (a : α) (k : ℕ)
    (hget : counts[i]? = some (a, k)) (hk : k ≠ 0) :
    countsMultiset counts = a ::ₘ countsMultiset (counts.set i (a, k - 1)) := by
  induction counts generalizing i with
  | nil => simp at hget
  | cons c cs ih =>
    cases i with
    | zero =>
      simp only [List.getElem?_cons_zero, Option.some.injEq] at hget
      subst hget
      simp only [List.set_cons_zero, countsMultiset, List.map_cons, List.sum_cons]
      rw [← Multiset.cons_add]
      have hrep : Multiset.replicate k a = a ::ₘ Multiset.replicate (k - 1) a := by
        conv_lhs => rw [show k = (k - 1) + 1 by omega]
        exact Multiset.replicate_succ a (k - 1)
      rw [hrep]
    | succ j =>
      simp only [List.getElem?_cons_succ] at hget
      simp only [List.set_cons_succ, countsMultiset, List.map_cons, List.sum_cons]
      have := ih j hget
      simp only [countsMultiset] at this
      rw [this, Multiset.add_cons]

omit [DecidableEq α] in
theorem countsMultiset_cons (c : α × ℕ) (cs : List (α × ℕ)) :
    countsMultiset (c :: cs) = Multiset.replicate c.2 c.1 + countsMultiset cs := rfl

omit [DecidableEq α] in
theorem exists_index_of_mem_countsMultiset (counts : List (α × ℕ)) (x : α)
    (hx : x ∈ countsMultiset counts) :
    ∃ (i : ℕ) (k : ℕ), counts[i]? = some (x, k) ∧ k ≠ 0 := by
  induction counts with
  | nil => simp [countsMultiset] at hx
  | cons c cs ih =>
    rw [countsMultiset_cons, Multiset.mem_add] at hx
    rcases hx with hx | hx
    · obtain ⟨hk, rfl⟩ := Multiset.mem_replicate.mp hx
      refine ⟨0, c.2, ?_, hk⟩
      simp
    · obtain ⟨i, k, hget, hk⟩ := ih hx
      refine ⟨i + 1, k, ?_, hk⟩
      simpa using hget

omit [DecidableEq α] in
theorem mem_keys_of_mem_countsMultiset (counts : List (α × ℕ)) (x : α)
    (hx : x ∈ countsMultiset counts) : x ∈ counts.map Prod.fst := by
  obtain ⟨i, k, hget, hk⟩ := exists_index_of_mem_countsMultiset counts x hx
  have hmap : (counts.map Prod.fst)[i]? = some x := by
    rw [List.getElem?_map, hget]
    rfl
  obtain ⟨hlt, heq⟩ := List.getElem?_eq_some.mp hmap
  exact heq ▸ List.getElem_mem hlt

/-- With distinct keys, the multiplicity of a key in the denoted
multiset is exactly its recorded count. -/
theorem countsMultiset_count (counts : List (α × ℕ))
    (hkeys : (counts.map Prod.fst).Nodup) (ck : α × ℕ) (hck : ck ∈ counts) :
    (countsMultiset counts).count ck.1 = ck.2 := by
  induction counts with
  | nil => simp at hck
  | cons c cs ih =>
    simp only [List.map_cons, List.nodup_cons] at hkeys
    obtain ⟨hhead, htail⟩ := hkeys
    rw [countsMultiset_cons, Multiset.count_add]
    rcases List.mem_cons.mp hck with rfl | hck'
    · rw [Multiset.count_replicate_self]
      have hnot : ck.1 ∉ countsMultiset cs := fun hmem =>
        hhead (mem_keys_of_mem_countsMultiset cs ck.1 hmem)
      rw [Multiset.count_eq_zero.mpr hnot, add_zero]
    · have hne : c.1 ≠ ck.1 := fun he =>
        hhead (he ▸ List.mem_map.mpr ⟨ck, hck', rfl⟩)
      rw [Multiset.count_replicate, if_neg hne, zero_add]
      exact ih htail hck'

omit [DecidableEq α] in
theorem generateAux_zero_total (fuel : ℕ) (counts : List (α × ℕ))
    (h0 : totalCount counts = 0) : generateAux fuel counts = [[]] := by
  cases fuel <;> rw [generateAux.eq_def, if_pos h0]

/-- The contribution of position `i` to one recursive step of the
generator (one iteration of the `for i, count in enumerate(counts)`
loop). -/
def generateBranch (fuel : ℕ) (counts : List (α × ℕ)) (i : ℕ) : List (List α) :=
  match counts[i]? with
  | none => []
  | some (a, k) =>
    if k = 0 then []
    else (generateAux fuel (counts.set i (a, k - 1))).map
      (fun extension => a :: extension)

omit [DecidableEq α] in
theorem generateBranch_none (fuel : ℕ) (counts : List (α × ℕ)) (i : ℕ)
    (hget : counts[i]? = none) : generateBranch fuel counts i = [] := by
  unfold generateBranch
  rw [hget]

omit [DecidableEq α] in
theorem generateBranch_some (fuel : ℕ) (counts : List (α × ℕ)) (i : ℕ)
    (a : α) (k : ℕ) (hget : counts[i]? = some (a, k)) :
    generateBranch fuel counts i =
      if k = 0 then []
      else (generateAux fuel (counts.set i (a, k - 1))).map
        (fun extension => a :: extension) := by
  unfold generateBranch
  rw [hget]

omit [DecidableEq α] in
/-- One unfolding of `generateAux` in the recursive case. -/
theorem generateAux_succ (f : ℕ) (counts : List (α × ℕ))
    (h0 : totalCount counts ≠ 0) :
    generateAux (f + 1) counts =
      (List.range counts.length).flatMap (generateBranch f counts) := by
  rw [generateAux.eq_def, if_neg h0]
  rfl

omit [DecidableEq α] in
/-- Membership characterization of the generator: a sequence is
generated exactly when its multiset of elements is the multiset denoted
by the counts dictionary. -/
theorem mem_generateAux_iff (fuel : ℕ) (counts : List (α × ℕ))
    (hfuel : totalCount counts ≤ fuel) (s : List α) :
    s ∈ generateAux fuel counts ↔ (s : Multiset α) = countsMultiset counts := by
  induction fuel generalizing counts s with
  | zero =>
    have h0 : totalCount counts = 0 := Nat.le_zero.mp hfuel
    rw [generateAux_zero_total 0 counts h0, countsMultiset_eq_zero counts h0]
    simp [Multiset.coe_eq_zero]
  | succ f ih =>
    by_cases h0 : totalCount counts = 0
    · rw [generateAux_zero_total (f + 1) counts h0, countsMultiset_eq_zero counts h0]
      simp [Multiset.coe_eq_zero]
    · rw [generateAux_succ f counts h0, List.mem_flatMap]
      constructor
      · rintro ⟨i, hi, hbranch⟩
        cases hget : counts[i]? with
        | none => rw [generateBranch_none f counts i hget] at hbranch; cases hbranch
        | some ak =>
          obtain ⟨a, k⟩ := ak
          rw [generateBranch_some f counts i a k hget] at hbranch
          by_cases hk : k = 0
          · rw [if_pos hk] at hbranch; cases hbranch
          · rw [if_neg hk] at hbranch
            obtain ⟨ext, hext, rfl⟩ := List.mem_map.mp hbranch
            have hle : totalCount (counts.set i (a, k - 1)) ≤ f := by
              have := totalCount_set_pred counts i a k hget hk
              omega
            have hextm := (ih (counts.set i (a, k - 1)) hle ext).mp hext
            rw [← Multiset.cons_coe, hextm,
              ← countsMultiset_set_pred counts i a k hget hk]
      · intro hs
        cases s with
        | nil =>
          exfalso
          apply h0
          rw [← countsMultiset_card counts, ← hs]
          rfl
        | cons x t =>
          have hxmem : x ∈ countsMultiset counts := by
            rw [← hs]
            exact List.mem_cons_self x t
          obtain ⟨i, k, hget, hk⟩ :=
            exists_index_of_mem_countsMultiset counts x hxmem
          have hlt : i < counts.length :=
            (List.getElem?_eq_some.mp hget).1
          refine ⟨i, List.mem_range.mpr hlt, ?_⟩
          rw [generateBranch_some f counts i x k hget, if_neg hk]
          have hcons : (x :: t : Multiset α) = x ::ₘ (t : Multiset α) :=
            (Multiset.cons_coe x t).symm
          have hset : (t : Multiset α) = countsMultiset (counts.set i (x, k - 1)) := by
            have h1 : x ::ₘ (t : Multiset α)
                = x ::ₘ countsMultiset (counts.set i (x, k - 1)) := by
              rw [← hcons, hs, countsMultiset_set_pred counts i x k hget hk]
            exact (Multiset.cons_inj_right x).mp h1
          have hle : totalCount (counts.set i (x, k - 1)) ≤ f := by
            have := totalCount_set_pred counts i x k hget hk
            omega
          exact List.mem_map.mpr
            ⟨t, (ih (counts.set i (x, k - 1)) hle t).mpr hset, rfl⟩

theorem mem_generate_iff (counts : List (α × ℕ)) (s : List α) :
    s ∈ generate counts ↔ (s : Multiset α) = countsMultiset counts :=
  mem_generateAux_iff (totalCount counts) counts le_rfl s

omit [DecidableEq α] in
/-- Setting a count leaves the key list unchanged. -/
theorem keys_set_eq (counts : List (α × ℕ)) (i : ℕ) (a : α) (k k' : ℕ)
    (hget : counts[i]? = some (a, k)) :
    (counts.set i (a, k')).map Prod.fst = counts.map Prod.fst := by
  induction counts generalizing i with
  | nil => rfl
  | cons c cs ih =>
    cases i with
    | zero =>
      simp only [List.getElem?_cons_zero, Option.some.injEq] at hget
      subst hget
      simp
    | succ j =>
      simp only [List.getElem?_cons_succ] at hget
      simp [ih j hget]

omit [DecidableEq α] in
/-- With distinct keys, the generator never produces the same sequence
twice: within one branch the recursive results are distinct by
induction, and different branches start with different labels. -/
theorem generateAux_nodup (fuel : ℕ) (counts : List (α × ℕ))
    (hfuel : totalCount counts ≤ fuel)
    (hkeys : (counts.map Prod.fst).Nodup) : (generateAux fuel counts).Nodup := by
  induction fuel generalizing counts with
  | zero =>
    rw [generateAux_zero_total 0 counts (Nat.le_zero.mp hfuel)]
    simp
  | succ f ih =>
    by_cases h0 : totalCount counts = 0
    · rw [generateAux_zero_total _ _ h0]
      simp
    · rw [generateAux_succ f counts h0]
      apply List.nodup_flatMap.mpr
      constructor
      · intro i hi
        cases hget : counts[i]? with
        | none =>
          rw [generateBranch_none f counts i hget]
          exact List.nodup_nil
        | some ak =>
          obtain ⟨a, k⟩ := ak
          rw [generateBranch_some f counts i a k hget]
          by_cases hk : k = 0
          · rw [if_pos hk]; exact List.nodup_nil
          · rw [if_neg hk]
            refine List.Nodup.map ?_ ?_
            · intro x y h
              injection h
            · refine ih (counts.set i (a, k - 1)) ?_ ?_
              · have := totalCount_set_pred counts i a k hget hk
                omega
              · rw [keys_set_eq counts i a k (k - 1) hget]
                exact hkeys
      · refine List.Pairwise.imp_of_mem ?_ (List.pairwise_lt_range counts.length)
        intro i j hi hj hij
        intro t hti htj
        cases hgeti : counts[i]? with
        | none => rw [generateBranch_none f counts i hgeti] at hti; cases hti
        | some aki =>
          obtain ⟨a, ki⟩ := aki
          rw [generateBranch_some f counts i a ki hgeti] at hti
          by_cases hki : ki = 0
          · rw [if_pos hki] at hti; cases hti
          rw [if_neg hki] at hti
          obtain ⟨exti, _, hti_eq⟩ := List.mem_map.mp hti
          cases hgetj : counts[j]? with
          | none => rw [generateBranch_none f counts j hgetj] at htj; cases htj
          | some akj =>
            obtain ⟨b, kj⟩ := akj
            rw [generateBranch_some f counts j b kj hgetj] at htj
            by_cases hkj : kj = 0
            · rw [if_pos hkj] at htj; cases htj
            rw [if_neg hkj] at htj
            obtain ⟨extj, _, htj_eq⟩ := List.mem_map.mp htj
            have hab : a = b := by
              have := hti_eq.trans htj_eq.symm
              injection this
            subst hab
            have hmi : (counts.map Prod.fst)[i]? = some a := by
              rw [List.getElem?_map, hgeti]; rfl
            have hmj : (counts.map Prod.fst)[j]? = some a := by
              rw [List.getElem?_map, hgetj]; rfl
            obtain ⟨hlti, heqi⟩ := List.getElem?_eq_some.mp hmi
            obtain ⟨hltj, heqj⟩ := List.getElem?_eq_some.mp hmj
            have : i = j := (hkeys.getElem_inj_iff).mp (heqi.trans heqj.symm)
            omega

theorem generate_nodup (counts : List (α × ℕ))
    (hkeys : (counts.map Prod.fst).Nodup) : (generate counts).Nodup :=
  generateAux_nodup (totalCount counts) counts le_rfl hkeys

omit [DecidableEq α] in
/-- Summing the looked-up counts over all positions gives the total
count. -/
theorem sum_range_snd (counts : List (α × ℕ)) :
    ((List.range counts.length).map
      (fun i => ((counts[i]?).map Prod.snd).getD 0)).sum = totalCount counts := by
  induction counts with
  | nil => rfl
  | cons c cs ih =>
    rw [List.length_cons, List.range_succ_eq_map, List.map_cons, List.sum_cons,
      List.map_map]
    have hcomp : ((fun i => (((c :: cs)[i]?).map Prod.snd).getD 0) ∘ Nat.succ)
        = fun i => ((cs[i]?).map Prod.snd).getD 0 := by
      funext i
      simp [Function.comp]
    rw [hcomp, ih]
    simp [totalCount]

omit [DecidableEq α] in
/-- Decrementing one positive count divides out exactly one factor of
`k` from the product of count factorials. -/
theorem prod_factorial_set (counts : List (α × ℕ)) (i : ℕ) (a : α) (k : ℕ)
    (hget : counts[i]? = some (a, k)) (hk : k ≠ 0) :
    ((counts.set i (a, k - 1)).map (fun ck => Nat.factorial ck.2)).prod * k
      = (counts.map (fun ck => Nat.factorial ck.2)).prod := by
  induction counts generalizing i with
  | nil => simp at hget
  | cons c cs ih =>
    cases i with
    | zero =>
      simp only [List.getElem?_cons_zero, Option.some.injEq] at hget
      subst hget
      simp only [List.set_cons_zero, List.map_cons, List.prod_cons]
      have hk1 : k - 1 + 1 = k := by omega
      have hfact : Nat.factorial (k - 1) * k = Nat.factorial k := by
        calc Nat.factorial (k - 1) * k
            = k * Nat.factorial (k - 1) := Nat.mul_comm _ _
          _ = (k - 1 + 1) * Nat.factorial (k - 1) := by rw [hk1]
          _ = Nat.factorial (k - 1 + 1) := (Nat.factorial_succ _).symm
          _ = Nat.factorial k := by rw [hk1]
      calc Nat.factorial (k - 1) * (cs.map (fun ck => Nat.factorial ck.2)).prod * k
          = Nat.factorial (k - 1) * k * (cs.map (fun ck => Nat.factorial ck.2)).prod := by
            ring
        _ = Nat.factorial k * (cs.map (fun ck => Nat.factorial ck.2)).prod := by
            rw [hfact]
    | succ j =>
      simp only [List.getElem?_cons_succ] at hget
      simp only [List.set_cons_succ, List.map_cons, List.prod_cons]
      rw [Nat.mul_assoc, ih j hget]

omit [DecidableEq α] in
/-- All-zero counts: one (empty) sequence and all factorials 1. -/
theorem generateAux_length_mul_zero (fl : ℕ) (counts : List (α × ℕ))
    (h0 : totalCount counts = 0) :
    (generateAux fl counts).length
        * (counts.map (fun ck => Nat.factorial ck.2)).prod
      = Nat.factorial (totalCount counts) := by
  rw [generateAux_zero_total fl counts h0, h0]
  have hall : ∀ x ∈ counts.map (fun ck => Nat.factorial ck.2), x = 1 := by
    intro x hx
    obtain ⟨ck, hck, rfl⟩ := List.mem_map.mp hx
    have hsum : ∀ y ∈ counts.map Prod.snd, y = 0 := List.sum_eq_zero_iff.mp h0
    have hck2 : ck.2 = 0 := hsum ck.2 (List.mem_map.mpr ⟨ck, hck, rfl⟩)
    rw [hck2]
    rfl
  rw [List.prod_eq_one hall]
  rfl

omit [DecidableEq α] in
/-- The number of generated sequences satisfies the multinomial
identity `|generate| · ∏ kᵥ! = (∑ kᵥ)!`. -/
theorem generateAux_length_mul (fuel : ℕ) (counts : List (α × ℕ))
    (hfuel : totalCount counts ≤ fuel) :
    (generateAux fuel counts).length
        * (counts.map (fun ck => Nat.factorial ck.2)).prod
      = Nat.factorial (totalCount counts) := by
  induction fuel generalizing counts with
  | zero => exact generateAux_length_mul_zero 0 counts (Nat.le_zero.mp hfuel)
  | succ f ih =>
    by_cases h0 : totalCount counts = 0
    · exact generateAux_length_mul_zero (f + 1) counts h0
    · rw [generateAux_succ f counts h0, List.length_flatMap,
        ← List.sum_map_mul_right]
      have hcongr : ∀ i ∈ List.range counts.length,
          (List.length ∘ generateBranch f counts) i
            * (counts.map (fun ck => Nat.factorial ck.2)).prod
          = Nat.factorial (totalCount counts - 1)
              * ((counts[i]?).map Prod.snd).getD 0 := by
        intro i hi
        have hlt : i < counts.length := List.mem_range.mp hi
        have hget : counts[i]? = some (counts[i].1, counts[i].2) := by
          rw [List.getElem?_eq_getElem hlt]
        rw [Function.comp_apply,
          generateBranch_some f counts i counts[i].1 counts[i].2 hget, hget]
        simp only [Option.map_some', Option.getD_some]
        by_cases hk : counts[i].2 = 0
        · rw [if_pos hk, hk]
          simp
        · rw [if_neg hk, List.length_map]
          have hset := totalCount_set_pred counts i counts[i].1 counts[i].2 hget hk
          have hih := ih (counts.set i (counts[i].1, counts[i].2 - 1)) (by omega)
          have hsettc : totalCount (counts.set i (counts[i].1, counts[i].2 - 1))
              = totalCount counts - 1 := by omega
          rw [hsettc] at hih
          calc (generateAux f (counts.set i (counts[i].1, counts[i].2 - 1))).length
                * (counts.map (fun ck => Nat.factorial ck.2)).prod
              = (generateAux f (counts.set i (counts[i].1, counts[i].2 - 1))).length
                * (((counts.set i (counts[i].1, counts[i].2 - 1)).map
                    (fun ck => Nat.factorial ck.2)).prod * counts[i].2) := by
                rw [prod_factorial_set counts i counts[i].1 counts[i].2 hget hk]
            _ = ((generateAux f (counts.set i (counts[i].1, counts[i].2 - 1))).length
                * ((counts.set i (counts[i].1, counts[i].2 - 1)).map
                    (fun ck => Nat.factorial ck.2)).prod) * counts[i].2 := by
                ring
            _ = Nat.factorial (totalCount counts - 1) * counts[i].2 := by
                rw [hih]
      rw [List.map_congr_left hcongr, List.sum_map_mul_left, sum_range_snd]
      have hN : totalCount counts - 1 + 1 = totalCount counts := by omega
      calc Nat.factorial (totalCount counts - 1) * totalCount counts
          = totalCount counts * Nat.factorial (totalCount counts - 1) :=
            Nat.mul_comm _ _
        _ = (totalCount counts - 1 + 1) * Nat.factorial (totalCount counts - 1) := by
            rw [hN]
        _ = Nat.factorial (totalCount counts - 1 + 1) := (Nat.factorial_succ _).symm
        _ = Nat.factorial (totalCount counts) := by rw [hN]

theorem generate_length_mul (counts : List (α × ℕ)) :
    (generate counts).length * (counts.map (fun ck => Nat.factorial ck.2)).prod
      = Nat.factorial (totalCount counts) :=
  generateAux_length_mul (totalCount counts) counts le_rfl

/-- C3: for a counts dictionary (distinct keys, counts in ℕ),
`CountLevelSetEvent.all_sequences()` returns every distinct arrangement
of the denoted multiset exactly once and nothing else: membership is
equivalent to having exactly the denoted multiset of elements, the
result is duplicate-free, every returned sequence has length
`sum(counts)` and uses each key exactly its count many times, and the
number of returned sequences is the multinomial coefficient
(`length · ∏ kᵥ! = (∑ kᵥ)!`; e.g. exactly 6 sequences for counts
`{A: 2, B: 2}`). -/
theorem C3_count_level_set_sequences (counts : List (α × ℕ))
    (hkeys : (counts.map Prod.fst).Nodup) :
    (∀ s, s ∈ countLevelSetSequences counts ↔
        (s : Multiset α) = countsMultiset counts) ∧
      (countLevelSetSequences counts).Nodup ∧
      (∀ s ∈ countLevelSetSequences counts, s.length = totalCount counts ∧
        ∀ ck ∈ counts, s.count ck.1 = ck.2) ∧
      (countLevelSetSequences counts).length
          * (counts.map (fun ck => Nat.factorial ck.2)).prod
        = Nat.factorial (totalCount counts) ∧
      (countLevelSetSequences [((3 : ℕ), 2), (4, 2)]).length = 6 := by
  refine ⟨fun s => mem_generate_iff counts s, generate_nodup counts hkeys, ?_,
    generate_length_mul counts, by decide⟩
  intro s hs
  have hms := (mem_generate_iff counts s).mp hs
  constructor
  · have hcard := congrArg Multiset.card hms
    rw [Multiset.coe_card, countsMultiset_card] at hcard
    exact hcard
  · intro ck hck
    have hc := congrArg (Multiset.count ck.1) hms
    rw [Multiset.coe_count] at hc
    rw [hc, countsMultiset_count counts hkeys ck hck]

/-- C3 (witness): counts `{3: 2, 4: 2}`. -/
theorem C3_count_level_set_sequences_witness :
    (countLevelSetSequences [((3 : ℕ), 2), (4, 2)]).Nodup ∧
      (countLevelSetSequences [((3 : ℕ), 2), (4, 2)]).length
          * ([((3 : ℕ), 2), (4, 2)].map (fun ck => Nat.factorial ck.2)).prod
        = Nat.factorial (totalCount [((3 : ℕ), 2), (4, 2)]) :=
  ⟨(C3_count_level_set_sequences [((3 : ℕ), 2), (4, 2)] (by decide)).2.1,
   (C3_count_level_set_sequences [((3 : ℕ), 2), (4, 2)] (by decide)).2.2.2.1⟩

/-! ## C2: multinomial closed form vs brute-force enumeration -/

theorem prod_map_countsMultiset (counts : List (α × ℕ)) (f : α → ℚ) :
    ((countsMultiset counts).map f).prod
      = (counts.map (fun ck => f ck.1 ^ ck.2)).prod := by
  induction counts with
  | nil => rfl
  | cons c cs ih =>
    rw [countsMultiset_cons, Multiset.map_add, Multiset.prod_add,
      Multiset.map_replicate, Multiset.prod_replicate, List.map_cons,
      List.prod_cons, ih]

/-- A sequence with the denoted multiset of elements has the same
product of per-element probabilities as `∏ f(v)^kᵥ`. -/
theorem prod_map_of_coe (s : List α) (counts : List (α × ℕ)) (f : α → ℚ)
    (hs : (s : Multiset α) = countsMultiset counts) :
    (s.map f).prod = (counts.map (fun ck => f ck.1 ^ ck.2)).prod := by
  rw [← prod_map_countsMultiset counts f, ← hs, Multiset.map_coe,
    Multiset.prod_coe]

theorem zip_replicate_prob (space : List (α × ℚ)) (s : List α) :
    ((List.replicate s.length space).zip s).map
        (fun p => singletonProbability p.1 p.2)
      = s.map (fun x => singletonProbability space x) := by
  induction s with
  | nil => rfl
  | cons x t ih =>
    simp only [List.length_cons, List.replicate_succ, List.zip_cons_cons,
      List.map_cons, ih]

theorem allSpacesEqual_replicate (n : ℕ) (space : List (α × ℚ)) :
    allSpacesEqual (List.replicate n space) = true := by
  cases n with
  | zero => rfl
  | succ m =>
    unfold allSpacesEqual
    rw [List.all_eq_true]
    intro x hx
    have hx' : x = space := List.eq_of_mem_replicate hx
    subst hx'
    simp [List.replicate_succ]

theorem sum_map_const_rat (seqs : List (List α)) (c : ℚ) :
    (seqs.map (fun _ => c)).sum = seqs.length * c := by
  induction seqs with
  | nil => simp
  | cons s rest ih =>
    rw [List.map_cons, List.sum_cons, ih, List.length_cons]
    push_cast
    ring

/-- The `CountLevelSetEvent` branch of `FiniteProductSpace.probability`
on a nonempty list of equal spaces with the matching total count. -/
theorem finiteProductProbability_cls (sp : List (α × ℚ))
    (rest : List (List (α × ℚ))) (counts : List (α × ℕ))
    (heq : allSpacesEqual (sp :: rest) = true)
    (hlen : totalCount counts = (sp :: rest).length) :
    finiteProductProbability (sp :: rest) (Event.countLevelSetEvent counts)
      = Except.ok ((Nat.factorial (totalCount counts) : ℚ) /
          ((counts.map (fun ck => Nat.factorial ck.2)).prod : ℕ)
          * (counts.map (fun ck => singletonProbability sp ck.1 ^ ck.2)).prod) := by
  show (if allSpacesEqual (sp :: rest) = true then
      (if totalCount counts = (sp :: rest).length then
        Except.ok ((Nat.factorial (totalCount counts) : ℚ) /
          ((counts.map (fun ck => Nat.factorial ck.2)).prod : ℕ)
          * (counts.map (fun ck => singletonProbability sp ck.1 ^ ck.2)).prod)
      else Except.error "AssertionError")
    else Except.error "Unhandled event type") = _
  rw [if_pos heq, if_pos hlen]

/-- C2 (counterexample): the empty `FiniteProductSpace` (all component
spaces trivially equal) with the empty `CountLevelSetEvent` (counts sum
0 = number of spaces) satisfies the claim's hypotheses, but the code
evaluates `self._spaces[0]` and raises `IndexError` instead of returning
the brute-force value 1. -/
theorem C2_counterexample :
    finiteProductProbability ([] : List (List (ℕ × ℚ)))
        (Event.countLevelSetEvent []) = Except.error "IndexError" ∧
      bruteForceProductProbability ([] : List (List (ℕ × ℚ)))
        (countLevelSetSequences ([] : List (ℕ × ℕ))) = 1 ∧
      totalCount ([] : List (ℕ × ℕ)) = ([] : List (List (ℕ × ℚ))).length := by
  refine ⟨rfl, ?_, rfl⟩
  norm_num [bruteForceProductProbability, countLevelSetSequences, generate,
    generateAux, totalCount]

/-- C2 (amended): for every `FiniteProductSpace` with **at least one**
component space, all components equal, and every `CountLevelSetEvent`
whose counts sum to the number of component spaces, the multinomial
closed form equals the sum, over `all_sequences()` of the event, of the
product of the per-coordinate component-space probabilities; in
particular with weights `{A: 1, B: 1}` over a product of 3 spaces,
`probability(CountLevelSetEvent({A: 2, B: 1}))` is `3/8`. -/
theorem C2_multinomial_matches_brute_force (space : List (α × ℚ))
    (counts : List (α × ℕ)) (n : ℕ)
    (hkeys : (counts.map Prod.fst).Nodup)
    (hn : totalCount counts = n) (hpos : 0 < n) :
    finiteProductProbability (List.replicate n space)
        (Event.countLevelSetEvent counts)
      = Except.ok (bruteForceProductProbability (List.replicate n space)
          (countLevelSetSequences counts)) ∧
      finiteProductProbability
          (List.replicate 3 (normalizeWeightsQ [((3 : ℕ), (1 : ℚ)), (4, 1)]))
          (Event.countLevelSetEvent [(3, 2), (4, 1)]) = Except.ok (3 / 8) := by
  constructor
  · obtain ⟨m, rfl⟩ : ∃ m, n = m + 1 := ⟨n - 1, by omega⟩
    have hrep : List.replicate (m + 1) space = space :: List.replicate m space :=
      List.replicate_succ space m
    have heqs : allSpacesEqual (space :: List.replicate m space) = true := by
      rw [← hrep]
      exact allSpacesEqual_replicate (m + 1) space
    have hlen : totalCount counts = (space :: List.replicate m space).length := by
      simp [hn]
    rw [hrep, finiteProductProbability_cls space (List.replicate m space)
      counts heqs hlen]
    apply congrArg
    unfold bruteForceProductProbability
    have hcommon : ∀ s ∈ countLevelSetSequences counts,
        (((space :: List.replicate m space).zip s).map
          (fun p => singletonProbability p.1 p.2)).prod
        = (counts.map (fun ck => singletonProbability space ck.1 ^ ck.2)).prod := by
      intro s hs
      have hms := (mem_generate_iff counts s).mp hs
      have hlen_s : s.length = m + 1 := by
        have hcard := congrArg Multiset.card hms
        rw [Multiset.coe_card, countsMultiset_card] at hcard
        omega
      have hrep2 : space :: List.replicate m space
          = List.replicate s.length space := by
        rw [hlen_s, List.replicate_succ]
      rw [hrep2, zip_replicate_prob]
      exact prod_map_of_coe s counts _ hms
    rw [List.map_congr_left hcommon, sum_map_const_rat]
    have hPpos : 0 < (counts.map (fun ck => Nat.factorial ck.2)).prod := by
      apply List.prod_pos
      intro a ha
      obtain ⟨ck, _, rfl⟩ := List.mem_map.mp ha
      exact Nat.factorial_pos ck.2
    have hP : ((counts.map (fun ck => Nat.factorial ck.2)).prod : ℚ) ≠ 0 := by
      exact_mod_cast hPpos.ne'
    have hcast : ((countLevelSetSequences counts).length : ℚ)
        * ((counts.map (fun ck => Nat.factorial ck.2)).prod : ℚ)
        = (Nat.factorial (totalCount counts) : ℚ) := by
      exact_mod_cast congrArg (Nat.cast : ℕ → ℚ) (generate_length_mul counts)
    have hco : (Nat.factorial (totalCount counts) : ℚ)
        / ((counts.map (fun ck => Nat.factorial ck.2)).prod : ℕ)
        = ((countLevelSetSequences counts).length : ℚ) :=
      (div_eq_iff hP).mpr (by rw [← hcast])
    rw [hco]
  · norm_num [finiteProductProbability, allSpacesEqual, singletonProbability,
      dictGet, normalizeWeightsQ, weightSum, totalCount, Nat.factorial,
      List.replicate]

/-- C2 (witness): weights `{3: 1/2, 4: 1/2}`, counts `{3: 2, 4: 1}`,
three component spaces. -/
theorem C2_multinomial_matches_brute_force_witness :
    finiteProductProbability
        (List.replicate 3 (normalizeWeightsQ [((3 : ℕ), (1 : ℚ)), (4, 1)]))
        (Event.countLevelSetEvent [(3, 2), (4, 1)])
      = Except.ok (bruteForceProductProbability
          (List.replicate 3 (normalizeWeightsQ [((3 : ℕ), (1 : ℚ)), (4, 1)]))
          (countLevelSetSequences [(3, 2), (4, 1)])) :=
  (C2_multinomial_matches_brute_force
    (normalizeWeightsQ [((3 : ℕ), (1 : ℚ)), (4, 1)]) [(3, 2), (4, 1)] 3
    (by decide) (by decide) (by decide)).1

end MathDataset
